import Mathlib

/-!
Verification of the `sanitation` crate's natural-language specification
against its source.

Bytes are modelled as `Nat` (all source values are `u8`, so no arithmetic
here can overflow; theorems that speak about "every byte" carry a `< 256`
hypothesis where the claim's range matters).  Characters of hex strings
are modelled as `Nat` Unicode code points.

The core embedding follows `src/sanitation/sstring.rs` (`SString`,
`extend_vec`, `push`, `safe`, `unchecked_safe`, accessors), the hex codec
of `src/src/lib.rs` (`to_hex`, `from_hex`) and the anomaly classifier of
`src/sanitation/sboolean.rs` (`SBoolean`).  `extend_vec`'s validation of
byte slices is Rust's `core::str::from_utf8` / `run_utf8_validation`,
embedded below as `utf8val` with the exact width table, continuation
checks and `(valid_up_to, error_len)` error reporting of the standard
library.  The scan loop is embedded with the default declining recovery
callback `|_, error| Err(error)` used by `SString::new` and
`SString::push` (the callback is the form the claims fix).
-/

namespace Sanitation

/-- Width table of Rust's `core::str::utf8_char_width`: expected length of a
UTF-8 encoded character from its first byte (0 marks a byte that can never
start a character). -/
def utf8CharWidth (b : Nat) : Nat :=
  if b ≤ 0x7F then 1
  else if b ≤ 0xC1 then 0
  else if b ≤ 0xDF then 2
  else if b ≤ 0xEF then 3
  else if b ≤ 0xF4 then 4
  else 0

/-- A UTF-8 continuation byte: `0x80 ≤ b ≤ 0xBF` (Rust's
`next!() as i8 >= -64` failure test negated). -/
def isCont (b : Nat) : Bool :=
  decide (0x80 ≤ b ∧ b ≤ 0xBF)

/-- Admissible second byte for a three-byte sequence, from
`run_utf8_validation`'s `match (first, next!())` arms for width 3. -/
def valid3 (b c : Nat) : Bool :=
  decide ((b = 0xE0 ∧ 0xA0 ≤ c ∧ c ≤ 0xBF)
    ∨ (0xE1 ≤ b ∧ b ≤ 0xEC ∧ 0x80 ≤ c ∧ c ≤ 0xBF)
    ∨ (b = 0xED ∧ 0x80 ≤ c ∧ c ≤ 0x9F)
    ∨ (0xEE ≤ b ∧ b ≤ 0xEF ∧ 0x80 ≤ c ∧ c ≤ 0xBF))

/-- Admissible second byte for a four-byte sequence, from
`run_utf8_validation`'s `match (first, next!())` arms for width 4. -/
def valid4 (b c : Nat) : Bool :=
  decide ((b = 0xF0 ∧ 0x90 ≤ c ∧ c ≤ 0xBF)
    ∨ (0xF1 ≤ b ∧ b ≤ 0xF3 ∧ 0x80 ≤ c ∧ c ≤ 0xBF)
    ∨ (b = 0xF4 ∧ 0x80 ≤ c ∧ c ≤ 0x8F))

/-- Shift an error report by the `n` bytes of a character consumed in front
of it (the `old_offset` accumulation of `run_utf8_validation`). -/
def addOffset (n : Nat) : Option (Nat × Option Nat) → Option (Nat × Option Nat)
  | none => none
  | some (v, e) => some (v + n, e)

/-- Rust's `core::str::run_utf8_validation`, the validator behind
`str::from_utf8` and `String::from_utf8`: `none` means the whole input is
valid UTF-8, `some (valid_up_to, error_len)` reports the first error, where
`error_len = none` stands for an incomplete sequence at the end of input. -/
def utf8val : List Nat → Option (Nat × Option Nat)
  | [] => none
  | b :: rest =>
    if b ≤ 0x7F then addOffset 1 (utf8val rest)
    else if utf8CharWidth b = 2 then
      match rest with
      | [] => some (0, none)
      | c :: rest2 =>
        if isCont c then addOffset 2 (utf8val rest2) else some (0, some 1)
    else if utf8CharWidth b = 3 then
      match rest with
      | [] => some (0, none)
      | c :: rest2 =>
        if valid3 b c then
          match rest2 with
          | [] => some (0, none)
          | d :: rest3 =>
            if isCont d then addOffset 3 (utf8val rest3) else some (0, some 2)
        else some (0, some 1)
    else if utf8CharWidth b = 4 then
      match rest with
      | [] => some (0, none)
      | c :: rest2 =>
        if valid4 b c then
          match rest2 with
          | [] => some (0, none)
          | d :: rest3 =>
            if isCont d then
              match rest3 with
              | [] => some (0, none)
              | e :: rest4 =>
                if isCont e then addOffset 4 (utf8val rest4) else some (0, some 3)
            else some (0, some 2)
        else some (0, some 1)
    else some (0, some 1)

example : utf8val [0x72, 0x31, 0x47, 0x31] = none := by decide
example : utf8val [0xFF, 0xFF] = some (0, some 1) := by decide
example : utf8val [0x61, 0xC2] = some (1, none) := by decide
example : utf8val [0xE0, 0xA0, 0x80] = none := by decide
example : utf8val [0xE0, 0x80] = some (0, some 1) := by decide
example : utf8val [0xF4, 0x80, 0x80, 0x80] = none := by decide
example : utf8val [0x61, 0xF4, 0x80, 0x41, 0x41] = some (1, some 2) := by decide

theorem addOffset_none_iff {n : Nat} {o : Option (Nat × Option Nat)} :
    addOffset n o = none ↔ o = none := by
  cases o with
  | none => simp [addOffset]
  | some p => cases p; simp [addOffset]

theorem addOffset_some_iff {n v : Nat} {e : Option Nat} :
    ∀ {o : Option (Nat × Option Nat)},
      addOffset n o = some (v, e) ↔ ∃ v', o = some (v', e) ∧ v = v' + n
  | none => by simp [addOffset]
  | some (a, b) => by
    simp only [addOffset, Option.some.injEq, Prod.mk.injEq]
    constructor
    · rintro ⟨rfl, rfl⟩
      exact ⟨a, ⟨rfl, rfl⟩, rfl⟩
    · rintro ⟨v', ⟨rfl, rfl⟩, rfl⟩
      exact ⟨rfl, rfl⟩

/-! Conditional unfolding equations for `utf8val`, one per branch of the
validator (the shapes of Lean's auto-generated equations do not line up with
the branch conditions, so these are proved once and used everywhere). -/

theorem utf8val_ascii {b : Nat} {rest : List Nat} (hb : b ≤ 0x7F) :
    utf8val (b :: rest) = addOffset 1 (utf8val rest) := by
  rcases rest with _ | ⟨x, _ | ⟨y, _ | ⟨z, r⟩⟩⟩ <;> simp [utf8val, hb]

theorem utf8val_two_nil {b : Nat} (hb : ¬ b ≤ 0x7F) (h2 : utf8CharWidth b = 2) :
    utf8val [b] = some (0, none) := by
  simp [utf8val, hb, h2]

theorem utf8val_two_cont {b c : Nat} {rest : List Nat} (hb : ¬ b ≤ 0x7F)
    (h2 : utf8CharWidth b = 2) (hc : isCont c = true) :
    utf8val (b :: c :: rest) = addOffset 2 (utf8val rest) := by
  rcases rest with _ | ⟨x, _ | ⟨y, r⟩⟩ <;> simp [utf8val, hb, h2, hc]

theorem utf8val_two_err {b c : Nat} {rest : List Nat} (hb : ¬ b ≤ 0x7F)
    (h2 : utf8CharWidth b = 2) (hc : ¬ isCont c = true) :
    utf8val (b :: c :: rest) = some (0, some 1) := by
  rcases rest with _ | ⟨x, _ | ⟨y, r⟩⟩ <;> simp [utf8val, hb, h2, hc]

theorem utf8val_three_nil {b : Nat} (hb : ¬ b ≤ 0x7F) (h3 : utf8CharWidth b = 3) :
    utf8val [b] = some (0, none) := by
  have hn2 : ¬ utf8CharWidth b = 2 := by simp [h3]
  simp [utf8val, hb, hn2, h3]

theorem utf8val_three_pair_nil {b c : Nat} (hb : ¬ b ≤ 0x7F)
    (h3 : utf8CharWidth b = 3) (hv : valid3 b c = true) :
    utf8val [b, c] = some (0, none) := by
  have hn2 : ¬ utf8CharWidth b = 2 := by simp [h3]
  simp [utf8val, hb, hn2, h3, hv]

theorem utf8val_three_cont {b c d : Nat} {rest : List Nat} (hb : ¬ b ≤ 0x7F)
    (h3 : utf8CharWidth b = 3) (hv : valid3 b c = true) (hd : isCont d = true) :
    utf8val (b :: c :: d :: rest) = addOffset 3 (utf8val rest) := by
  have hn2 : ¬ utf8CharWidth b = 2 := by simp [h3]
  rcases rest with _ | ⟨x, r⟩ <;> simp [utf8val, hb, hn2, h3, hv, hd]

theorem utf8val_three_err3 {b c d : Nat} {rest : List Nat} (hb : ¬ b ≤ 0x7F)
    (h3 : utf8CharWidth b = 3) (hv : valid3 b c = true) (hd : ¬ isCont d = true) :
    utf8val (b :: c :: d :: rest) = some (0, some 2) := by
  have hn2 : ¬ utf8CharWidth b = 2 := by simp [h3]
  rcases rest with _ | ⟨x, r⟩ <;> simp [utf8val, hb, hn2, h3, hv, hd]

theorem utf8val_three_err2 {b c : Nat} {rest : List Nat} (hb : ¬ b ≤ 0x7F)
    (h3 : utf8CharWidth b = 3) (hv : ¬ valid3 b c = true) :
    utf8val (b :: c :: rest) = some (0, some 1) := by
  have hn2 : ¬ utf8CharWidth b = 2 := by simp [h3]
  rcases rest with _ | ⟨x, _ | ⟨y, r⟩⟩ <;> simp [utf8val, hb, hn2, h3, hv]

theorem utf8val_four_nil {b : Nat} (hb : ¬ b ≤ 0x7F) (h4 : utf8CharWidth b = 4) :
    utf8val [b] = some (0, none) := by
  have hn2 : ¬ utf8CharWidth b = 2 := by simp [h4]
  have hn3 : ¬ utf8CharWidth b = 3 := by simp [h4]
  simp [utf8val, hb, hn2, hn3, h4]

theorem utf8val_four_pair_nil {b c : Nat} (hb : ¬ b ≤ 0x7F)
    (h4 : utf8CharWidth b = 4) (hv : valid4 b c = true) :
    utf8val [b, c] = some (0, none) := by
  have hn2 : ¬ utf8CharWidth b = 2 := by simp [h4]
  have hn3 : ¬ utf8CharWidth b = 3 := by simp [h4]
  simp [utf8val, hb, hn2, hn3, h4, hv]

theorem utf8val_four_trip_nil {b c d : Nat} (hb : ¬ b ≤ 0x7F)
    (h4 : utf8CharWidth b = 4) (hv : valid4 b c = true) (hd : isCont d = true) :
    utf8val [b, c, d] = some (0, none) := by
  have hn2 : ¬ utf8CharWidth b = 2 := by simp [h4]
  have hn3 : ¬ utf8CharWidth b = 3 := by simp [h4]
  simp [utf8val, hb, hn2, hn3, h4, hv, hd]

theorem utf8val_four_cont {b c d f : Nat} {rest : List Nat} (hb : ¬ b ≤ 0x7F)
    (h4 : utf8CharWidth b = 4) (hv : valid4 b c = true) (hd : isCont d = true)
    (hf : isCont f = true) :
    utf8val (b :: c :: d :: f :: rest) = addOffset 4 (utf8val rest) := by
  have hn2 : ¬ utf8CharWidth b = 2 := by simp [h4]
  have hn3 : ¬ utf8CharWidth b = 3 := by simp [h4]
  simp [utf8val, hb, hn2, hn3, h4, hv, hd, hf]

theorem utf8val_four_err4 {b c d f : Nat} {rest : List Nat} (hb : ¬ b ≤ 0x7F)
    (h4 : utf8CharWidth b = 4) (hv : valid4 b c = true) (hd : isCont d = true)
    (hf : ¬ isCont f = true) :
    utf8val (b :: c :: d :: f :: rest) = some (0, some 3) := by
  have hn2 : ¬ utf8CharWidth b = 2 := by simp [h4]
  have hn3 : ¬ utf8CharWidth b = 3 := by simp [h4]
  simp [utf8val, hb, hn2, hn3, h4, hv, hd, hf]

theorem utf8val_four_err3 {b c d : Nat} {rest : List Nat} (hb : ¬ b ≤ 0x7F)
    (h4 : utf8CharWidth b = 4) (hv : valid4 b c = true) (hd : ¬ isCont d = true) :
    utf8val (b :: c :: d :: rest) = some (0, some 2) := by
  have hn2 : ¬ utf8CharWidth b = 2 := by simp [h4]
  have hn3 : ¬ utf8CharWidth b = 3 := by simp [h4]
  rcases rest with _ | ⟨x, r⟩ <;> simp [utf8val, hb, hn2, hn3, h4, hv, hd]

theorem utf8val_four_err2 {b c : Nat} {rest : List Nat} (hb : ¬ b ≤ 0x7F)
    (h4 : utf8CharWidth b = 4) (hv : ¬ valid4 b c = true) :
    utf8val (b :: c :: rest) = some (0, some 1) := by
  have hn2 : ¬ utf8CharWidth b = 2 := by simp [h4]
  have hn3 : ¬ utf8CharWidth b = 3 := by simp [h4]
  rcases rest with _ | ⟨x, _ | ⟨y, r⟩⟩ <;> simp [utf8val, hb, hn2, hn3, h4, hv]

theorem utf8val_bad {b : Nat} {rest : List Nat} (hb : ¬ b ≤ 0x7F)
    (hn2 : ¬ utf8CharWidth b = 2) (hn3 : ¬ utf8CharWidth b = 3)
    (hn4 : ¬ utf8CharWidth b = 4) :
    utf8val (b :: rest) = some (0, some 1) := by
  rcases rest with _ | ⟨x, _ | ⟨y, _ | ⟨z, r⟩⟩⟩ <;> simp [utf8val, hb, hn2, hn3, hn4]


theorem utf8val_bound_none {q : List Nat} :
    ∀ el : Nat, (none : Option Nat) = some el → 1 ≤ el ∧ el ≤ q.length :=
  fun _ hel => absurd hel (by simp)

theorem utf8val_bound_one {q : List Nat} {c1 : Nat} :
    ∀ el : Nat, (some 1 : Option Nat) = some el → 1 ≤ el ∧ el ≤ (c1 :: q).length := by
  intro el hel
  simp only [Option.some.injEq] at hel
  subst hel
  simp only [List.length_cons]
  omega

theorem utf8val_bound_two {q : List Nat} {c1 c2 c3 : Nat} :
    ∀ el : Nat, (some 2 : Option Nat) = some el →
      1 ≤ el ∧ el ≤ (c1 :: c2 :: c3 :: q).length := by
  intro el hel
  simp only [Option.some.injEq] at hel
  subst hel
  simp only [List.length_cons]
  omega

theorem utf8val_bound_three {q : List Nat} {c1 c2 c3 c4 : Nat} :
    ∀ el : Nat, (some 3 : Option Nat) = some el →
      1 ≤ el ∧ el ≤ (c1 :: c2 :: c3 :: c4 :: q).length := by
  intro el hel
  simp only [Option.some.injEq] at hel
  subst hel
  simp only [List.length_cons]
  omega

theorem utf8val_decomp_leaf {l : List Nat} {v : Nat} {e ex : Option Nat}
    (hl : utf8val l = some (0, ex))
    (h : utf8val l = some (v, e))
    (hbound : ∀ el, ex = some el → 1 ≤ el ∧ el ≤ l.length) :
    ∃ a bs, l = a ++ bs ∧ a.length = v ∧ utf8val a = none ∧ utf8val bs = some (0, e) ∧
      (∀ el, e = some el → 1 ≤ el ∧ el ≤ bs.length) := by
  rw [hl] at h
  simp only [Option.some.injEq, Prod.mk.injEq] at h
  obtain ⟨rfl, rfl⟩ := h
  exact ⟨[], l, by simp, rfl, by simp [utf8val], hl, hbound⟩

/-- On error, the input splits as a valid prefix of length `valid_up_to`
followed by a suffix whose validation fails immediately with the same
`error_len`; a definite `error_len` is between 1 and the suffix length. -/
theorem utf8val_decomp (l : List Nat) :
    ∀ v e, utf8val l = some (v, e) →
      ∃ a bs, l = a ++ bs ∧ a.length = v ∧ utf8val a = none ∧ utf8val bs = some (0, e) ∧
        (∀ el, e = some el → 1 ≤ el ∧ el ≤ bs.length) := by
  induction l using utf8val.induct
  case case1 =>
    intro v e h
    exact absurd h (by simp [utf8val])
  case case2 c rest2 hc ih =>
    intro v e h
    rw [utf8val_ascii hc, addOffset_some_iff] at h
    obtain ⟨v', h1, rfl⟩ := h
    obtain ⟨a, bs, rfl, rfl, ha, hb, hbnd⟩ := ih v' e h1
    exact ⟨c :: a, bs, by simp, by simp,
      by rw [utf8val_ascii hc, addOffset_none_iff]; exact ha, hb, hbnd⟩
  case case3 c hb h2 =>
    intro v e h
    exact utf8val_decomp_leaf (utf8val_two_nil hb h2) h utf8val_bound_none
  case case4 c hb h2 c1 rest2 hcont ih =>
    intro v e h
    rw [utf8val_two_cont hb h2 hcont, addOffset_some_iff] at h
    obtain ⟨v', h1, rfl⟩ := h
    obtain ⟨a, bs, rfl, rfl, ha, hbs, hbnd⟩ := ih v' e h1
    exact ⟨c :: c1 :: a, bs, by simp, by simp,
      by rw [utf8val_two_cont hb h2 hcont, addOffset_none_iff]; exact ha, hbs, hbnd⟩
  case case5 c hb h2 c1 rest2 hcont =>
    intro v e h
    exact utf8val_decomp_leaf (utf8val_two_err hb h2 hcont) h utf8val_bound_one
  case case6 c hb hn2 h3 =>
    intro v e h
    exact utf8val_decomp_leaf (utf8val_three_nil hb h3) h utf8val_bound_none
  case case7 c hb hn2 h3 c1 hv3 =>
    intro v e h
    exact utf8val_decomp_leaf (utf8val_three_pair_nil hb h3 hv3) h utf8val_bound_none
  case case8 c hb hn2 h3 c1 hv3 c2 rest2 hcont ih =>
    intro v e h
    rw [utf8val_three_cont hb h3 hv3 hcont, addOffset_some_iff] at h
    obtain ⟨v', h1, rfl⟩ := h
    obtain ⟨a, bs, rfl, rfl, ha, hbs, hbnd⟩ := ih v' e h1
    exact ⟨c :: c1 :: c2 :: a, bs, by simp, by simp,
      by rw [utf8val_three_cont hb h3 hv3 hcont, addOffset_none_iff]; exact ha, hbs, hbnd⟩
  case case9 c hb hn2 h3 c1 hv3 c2 rest2 hcont =>
    intro v e h
    exact utf8val_decomp_leaf (utf8val_three_err3 hb h3 hv3 hcont) h utf8val_bound_two
  case case10 c hb hn2 h3 c1 rest2 hnv3 =>
    intro v e h
    exact utf8val_decomp_leaf (utf8val_three_err2 hb h3 hnv3) h utf8val_bound_one
  case case11 c hb hn2 hn3 h4 =>
    intro v e h
    exact utf8val_decomp_leaf (utf8val_four_nil hb h4) h utf8val_bound_none
  case case12 c hb hn2 hn3 h4 c1 hv4 =>
    intro v e h
    exact utf8val_decomp_leaf (utf8val_four_pair_nil hb h4 hv4) h utf8val_bound_none
  case case13 c hb hn2 hn3 h4 c1 hv4 c2 hc2 =>
    intro v e h
    exact utf8val_decomp_leaf (utf8val_four_trip_nil hb h4 hv4 hc2) h utf8val_bound_none
  case case14 c hb hn2 hn3 h4 c1 hv4 c2 hc2 c3 rest2 hc3 ih =>
    intro v e h
    rw [utf8val_four_cont hb h4 hv4 hc2 hc3, addOffset_some_iff] at h
    obtain ⟨v', h1, rfl⟩ := h
    obtain ⟨a, bs, rfl, rfl, ha, hbs, hbnd⟩ := ih v' e h1
    exact ⟨c :: c1 :: c2 :: c3 :: a, bs, by simp, by simp,
      by rw [utf8val_four_cont hb h4 hv4 hc2 hc3, addOffset_none_iff]; exact ha, hbs, hbnd⟩
  case case15 c hb hn2 hn3 h4 c1 hv4 c2 hc2 c3 rest2 hc3 =>
    intro v e h
    exact utf8val_decomp_leaf (utf8val_four_err4 hb h4 hv4 hc2 hc3) h utf8val_bound_three
  case case16 c hb hn2 hn3 h4 c1 hv4 c2 rest2 hc2 =>
    intro v e h
    exact utf8val_decomp_leaf (utf8val_four_err3 hb h4 hv4 hc2) h utf8val_bound_two
  case case17 c hb hn2 hn3 h4 c1 rest2 hnv4 =>
    intro v e h
    exact utf8val_decomp_leaf (utf8val_four_err2 hb h4 hnv4) h utf8val_bound_one
  case case18 c rest2 hb hn2 hn3 hn4 =>
    intro v e h
    exact utf8val_decomp_leaf (utf8val_bad hb hn2 hn3 hn4) h utf8val_bound_one

/-- The reported `valid_up_to` never exceeds the input length. -/
theorem utf8val_vup_le (l : List Nat) :
    ∀ v e, utf8val l = some (v, e) → v ≤ l.length := by
  intro v e h
  obtain ⟨a, bs, rfl, rfl, -, -, -⟩ := utf8val_decomp _ v e h
  simp [List.length_append]

/-- A definite `error_len` is at least one byte and the reported run
`[valid_up_to, valid_up_to + error_len)` lies inside the input. -/
theorem utf8val_some_some (l : List Nat) :
    ∀ v el, utf8val l = some (v, some el) → 1 ≤ el ∧ v + el ≤ l.length := by
  intro v el h
  obtain ⟨a, bs, rfl, rfl, -, -, hbnd⟩ := utf8val_decomp _ v (some el) h
  obtain ⟨h1, h2⟩ := hbnd el rfl
  simp only [List.length_append]
  omega

/-- The valid prefix `input[0 .. valid_up_to)` reported on error is itself
valid UTF-8. -/
theorem utf8val_take_valid {l : List Nat} {v : Nat} {e : Option Nat}
    (h : utf8val l = some (v, e)) : utf8val (l.take v) = none := by
  obtain ⟨a, bs, rfl, rfl, ha, -, -⟩ := utf8val_decomp _ v e h
  rw [List.take_left]
  exact ha

/-- Valid UTF-8 byte lists are closed under concatenation. -/
theorem utf8val_append : ∀ l l2 : List Nat,
    utf8val l = none → utf8val l2 = none → utf8val (l ++ l2) = none := by
  intro l
  induction l using utf8val.induct
  case case1 =>
    intro l2 h h2
    simpa using h2
  case case2 c rest2 hc ih =>
    intro l2 h h2
    rw [utf8val_ascii hc, addOffset_none_iff] at h
    rw [List.cons_append, utf8val_ascii hc, addOffset_none_iff]
    exact ih l2 h h2
  case case3 c hb hw2 =>
    intro l2 h h2
    rw [utf8val_two_nil hb hw2] at h
    simp at h
  case case4 c hb hw2 c1 rest2 hcont ih =>
    intro l2 h h2
    rw [utf8val_two_cont hb hw2 hcont, addOffset_none_iff] at h
    rw [List.cons_append, List.cons_append, utf8val_two_cont hb hw2 hcont,
      addOffset_none_iff]
    exact ih l2 h h2
  case case5 c hb hw2 c1 rest2 hcont =>
    intro l2 h h2
    rw [utf8val_two_err hb hw2 hcont] at h
    simp at h
  case case6 c hb hn2 h3 =>
    intro l2 h h2
    rw [utf8val_three_nil hb h3] at h
    simp at h
  case case7 c hb hn2 h3 c1 hv3 =>
    intro l2 h h2
    rw [utf8val_three_pair_nil hb h3 hv3] at h
    simp at h
  case case8 c hb hn2 h3 c1 hv3 c2 rest2 hcont ih =>
    intro l2 h h2
    rw [utf8val_three_cont hb h3 hv3 hcont, addOffset_none_iff] at h
    rw [List.cons_append, List.cons_append, List.cons_append,
      utf8val_three_cont hb h3 hv3 hcont, addOffset_none_iff]
    exact ih l2 h h2
  case case9 c hb hn2 h3 c1 hv3 c2 rest2 hcont =>
    intro l2 h h2
    rw [utf8val_three_err3 hb h3 hv3 hcont] at h
    simp at h
  case case10 c hb hn2 h3 c1 rest2 hnv3 =>
    intro l2 h h2
    rw [utf8val_three_err2 hb h3 hnv3] at h
    simp at h
  case case11 c hb hn2 hn3 h4 =>
    intro l2 h h2
    rw [utf8val_four_nil hb h4] at h
    simp at h
  case case12 c hb hn2 hn3 h4 c1 hv4 =>
    intro l2 h h2
    rw [utf8val_four_pair_nil hb h4 hv4] at h
    simp at h
  case case13 c hb hn2 hn3 h4 c1 hv4 c2 hc2 =>
    intro l2 h h2
    rw [utf8val_four_trip_nil hb h4 hv4 hc2] at h
    simp at h
  case case14 c hb hn2 hn3 h4 c1 hv4 c2 hc2 c3 rest2 hc3 ih =>
    intro l2 h h2
    rw [utf8val_four_cont hb h4 hv4 hc2 hc3, addOffset_none_iff] at h
    rw [List.cons_append, List.cons_append, List.cons_append, List.cons_append,
      utf8val_four_cont hb h4 hv4 hc2 hc3, addOffset_none_iff]
    exact ih l2 h h2
  case case15 c hb hn2 hn3 h4 c1 hv4 c2 hc2 c3 rest2 hc3 =>
    intro l2 h h2
    rw [utf8val_four_err4 hb h4 hv4 hc2 hc3] at h
    simp at h
  case case16 c hb hn2 hn3 h4 c1 hv4 c2 rest2 hc2 =>
    intro l2 h h2
    rw [utf8val_four_err3 hb h4 hv4 hc2] at h
    simp at h
  case case17 c hb hn2 hn3 h4 c1 rest2 hnv4 =>
    intro l2 h h2
    rw [utf8val_four_err2 hb h4 hnv4] at h
    simp at h
  case case18 c rest2 hb hn2 hn3 hn4 =>
    intro l2 h h2
    rw [utf8val_bad hb hn2 hn3 hn4] at h
    simp at h

/-- Internal state of `SString` (`src/sanitation/sstring.rs`): `g` holds the
invalid (garbage) bytes, `p` the span list, `i` the ingested bytes, `s` the
safe bytes. -/
structure SString where
  g : List Nat
  p : List (Nat × Nat)
  i : List Nat
  s : List Nat
deriving DecidableEq

/-- `SString::empty`. -/
def SString.empty : SString := ⟨[], [], [], []⟩

/-- Loop of `SString::extend_vec` specialised to the default declining
recovery callback `|_, error| Err(error)` (the form used by `SString::new`
and `SString::push`), fuelled so the definition is structurally recursive:
one unit of fuel per iteration; `input.length + 1` units always suffice
(`scanLoopF_fuel`). -/
def scanLoopF : Nat → List Nat → SString → SString
  | 0, _, st => st
  | fuel + 1, input, st =>
    match utf8val input with
    | none => { st with s := st.s ++ input }
    | some (v, some el) =>
      scanLoopF fuel (input.drop (v + el))
        { st with
          s := st.s ++ input.take v,
          p := (v, v + el) :: st.p,
          g := st.g ++ (input.drop v).take el }
    | some (v, none) => { st with s := st.s ++ input.take v }

/-- `SString::extend_vec` (with the default declining callback): record the
chunk into `i`, then run the scan loop over the chunk. -/
def SString.extend_vec (st : SString) (raw : List Nat) : SString :=
  scanLoopF (raw.length + 1) raw { st with i := st.i ++ raw }

/-- `SString::new`. -/
def SString.new (raw : List Nat) : SString :=
  SString.empty.extend_vec raw

/-- `SString::append` with the default declining callback, i.e.
`SString::push`. -/
def SString.push (st : SString) (b : Nat) : SString :=
  st.extend_vec [b]

/-- `SString::garbage_len`. -/
def SString.garbage_len (st : SString) : Nat := st.g.length

/-- `SString::garbage`. -/
def SString.garbage (st : SString) : List Nat := st.g

/-- `SString::has_garbage`. -/
def SString.has_garbage (st : SString) : Bool := decide (st.garbage_len > 0)

/-- `SString::safe_len`. -/
def SString.safe_len (st : SString) : Nat := st.s.length

/-- `SString::safe_vec`. -/
def SString.safe_vec (st : SString) : List Nat := st.s

/-- `SString::len`. -/
def SString.len (st : SString) : Nat := st.i.length

/-- `SString::valid_utf8_chunk_boundaries`. -/
def SString.valid_utf8_chunk_boundaries (st : SString) : List (Nat × Nat) := st.p

/-- `SString::unchecked_safe`:
`String::from_utf8(self.s.clone()).expect("valid UTF-8 bytes")`.  The
successful decode is modelled as `some` of the byte list; `none` models the
`expect` panic branch taken when `s` is not valid UTF-8. -/
def SString.unchecked_safe (st : SString) : Option (List Nat) :=
  if utf8val st.s = none then some st.s else none

theorem scanLoopF_fuel : ∀ (f1 f2 : Nat) (input : List Nat) (st : SString),
    input.length < f1 → input.length < f2 →
    scanLoopF f1 input st = scanLoopF f2 input st := by
  intro f1
  induction f1 with
  | zero =>
    intro f2 input st h1 h2
    exact absurd h1 (by omega)
  | succ f ih =>
    intro f2 input st h1 h2
    cases f2 with
    | zero => exact absurd h2 (by omega)
    | succ f2' =>
      cases hv : utf8val input with
      | none => simp [scanLoopF, hv]
      | some ve =>
        obtain ⟨v, eo⟩ := ve
        cases eo with
        | none => simp [scanLoopF, hv]
        | some el =>
          have hb := utf8val_some_some input v el hv
          simp only [scanLoopF, hv]
          apply ih
          · simp only [List.length_drop]; omega
          · simp only [List.length_drop]; omega

/-- Chronological description of one scan of one chunk, written after spec
§4.1 (this is the spec-side definition used to state refinement theorems):
it returns, in this order, the safe bytes of the chunk, the invalid spans in
the order the runs were found, the garbage bytes of the chunk, and the
number of undecided trailing bytes left when the validator reports an
incomplete final sequence. -/
def chronScanF : Nat → List Nat → List Nat × List (Nat × Nat) × List Nat × Nat
  | 0, _ => ([], [], [], 0)
  | fuel + 1, input =>
    match utf8val input with
    | none => (input, [], [], 0)
    | some (v, some el) =>
      let r := chronScanF fuel (input.drop (v + el))
      (input.take v ++ r.1, (v, v + el) :: r.2.1,
        (input.drop v).take el ++ r.2.2.1, r.2.2.2)
    | some (v, none) => (input.take v, [], [], input.length - v)

def chronScan (input : List Nat) : List Nat × List (Nat × Nat) × List Nat × Nat :=
  chronScanF (input.length + 1) input

/-- Safe bytes of one chunk, per spec §4.1. -/
def specSafe (input : List Nat) : List Nat := (chronScan input).1

/-- Invalid spans of one chunk in chronological order, per spec §4.1. -/
def specSpans (input : List Nat) : List (Nat × Nat) := (chronScan input).2.1

/-- Garbage bytes of one chunk, per spec §4.1. -/
def specGarbage (input : List Nat) : List Nat := (chronScan input).2.2.1

/-- Undecided trailing bytes of one chunk (incomplete final sequence),
per spec §4.1 step 3. -/
def specDropped (input : List Nat) : Nat := (chronScan input).2.2.2

theorem chronScanF_fuel : ∀ (f1 f2 : Nat) (input : List Nat),
    input.length < f1 → input.length < f2 →
    chronScanF f1 input = chronScanF f2 input := by
  intro f1
  induction f1 with
  | zero =>
    intro f2 input h1 h2
    exact absurd h1 (by omega)
  | succ f ih =>
    intro f2 input h1 h2
    cases f2 with
    | zero => exact absurd h2 (by omega)
    | succ f2' =>
      cases hv : utf8val input with
      | none => simp [chronScanF, hv]
      | some ve =>
        obtain ⟨v, eo⟩ := ve
        cases eo with
        | none => simp [chronScanF, hv]
        | some el =>
          have hb := utf8val_some_some input v el hv
          simp only [chronScanF, hv]
          rw [ih f2' (input.drop (v + el)) (by simp only [List.length_drop]; omega)
            (by simp only [List.length_drop]; omega)]

theorem spec_unfold_none {input : List Nat} (hv : utf8val input = none) :
    specSafe input = input ∧ specSpans input = [] ∧ specGarbage input = [] ∧
      specDropped input = 0 := by
  simp [specSafe, specSpans, specGarbage, specDropped, chronScan, chronScanF, hv]

theorem spec_unfold_incomplete {input : List Nat} {v : Nat}
    (hv : utf8val input = some (v, none)) :
    specSafe input = input.take v ∧ specSpans input = [] ∧ specGarbage input = [] ∧
      specDropped input = input.length - v := by
  simp [specSafe, specSpans, specGarbage, specDropped, chronScan, chronScanF, hv]

theorem spec_unfold_err {input : List Nat} {v el : Nat}
    (hv : utf8val input = some (v, some el)) :
    specSafe input = input.take v ++ specSafe (input.drop (v + el)) ∧
    specSpans input = (v, v + el) :: specSpans (input.drop (v + el)) ∧
    specGarbage input = (input.drop v).take el ++ specGarbage (input.drop (v + el)) ∧
    specDropped input = specDropped (input.drop (v + el)) := by
  have hb := utf8val_some_some input v el hv
  have hlt : (input.drop (v + el)).length < input.length := by
    simp only [List.length_drop]; omega
  have hinner : chronScanF input.length (input.drop (v + el)) =
      chronScan (input.drop (v + el)) := by
    apply chronScanF_fuel
    · exact hlt
    · omega
  have hmain : chronScan input =
      (input.take v ++ specSafe (input.drop (v + el)),
        (v, v + el) :: specSpans (input.drop (v + el)),
        (input.drop v).take el ++ specGarbage (input.drop (v + el)),
        specDropped (input.drop (v + el))) := by
    rw [chronScan]
    simp only [chronScanF, hv]
    rw [hinner]
    rfl
  refine ⟨?_, ?_, ?_, ?_⟩
  · show (chronScan input).1 = _
    rw [hmain]
  · show (chronScan input).2.1 = _
    rw [hmain]
  · show (chronScan input).2.2.1 = _
    rw [hmain]
  · show (chronScan input).2.2.2 = _
    rw [hmain]

/-- The scan loop, started on any state, appends the chunk's spec-side safe
bytes to `s`, appends its garbage bytes to `g`, prepends its spans in
reverse chronological order to `p`, and leaves `i` alone. -/
theorem scanLoop_spec (input : List Nat) (st : SString) :
    scanLoopF (input.length + 1) input st =
      ⟨st.g ++ specGarbage input, (specSpans input).reverse ++ st.p, st.i,
        st.s ++ specSafe input⟩ := by
  cases hv : utf8val input with
  | none =>
    obtain ⟨h1, h2, h3, h4⟩ := spec_unfold_none hv
    simp [scanLoopF, hv, h1, h2, h3]
  | some ve =>
    obtain ⟨v, eo⟩ := ve
    cases eo with
    | none =>
      obtain ⟨h1, h2, h3, h4⟩ := spec_unfold_incomplete hv
      simp [scanLoopF, hv, h1, h2, h3]
    | some el =>
      have hb := utf8val_some_some input v el hv
      have hlt : (input.drop (v + el)).length < input.length := by
        simp only [List.length_drop]; omega
      obtain ⟨h1, h2, h3, h4⟩ := spec_unfold_err hv
      have key := scanLoop_spec (input.drop (v + el))
        ⟨st.g ++ (input.drop v).take el, (v, v + el) :: st.p, st.i,
          st.s ++ input.take v⟩
      have hfuel : scanLoopF input.length (input.drop (v + el))
            ⟨st.g ++ (input.drop v).take el, (v, v + el) :: st.p, st.i,
              st.s ++ input.take v⟩ =
          scanLoopF ((input.drop (v + el)).length + 1) (input.drop (v + el))
            ⟨st.g ++ (input.drop v).take el, (v, v + el) :: st.p, st.i,
              st.s ++ input.take v⟩ := by
        apply scanLoopF_fuel <;> omega
      simp only [scanLoopF, hv]
      rw [hfuel, key, h1, h2, h3]
      simp [List.append_assoc]
termination_by input.length

/-- Per chunk, spec-side: safe bytes, garbage bytes and dropped trailing
bytes partition the chunk. -/
theorem spec_partition (input : List Nat) :
    (specSafe input).length + (specGarbage input).length + specDropped input =
      input.length := by
  cases hv : utf8val input with
  | none =>
    obtain ⟨h1, h2, h3, h4⟩ := spec_unfold_none hv
    simp [h1, h2, h3, h4]
  | some ve =>
    obtain ⟨v, eo⟩ := ve
    cases eo with
    | none =>
      have hvle := utf8val_vup_le input v none hv
      obtain ⟨h1, h2, h3, h4⟩ := spec_unfold_incomplete hv
      simp only [h1, h2, h3, h4, List.length_take, List.length_nil]
      omega
    | some el =>
      have hb := utf8val_some_some input v el hv
      have hlt : (input.drop (v + el)).length < input.length := by
        simp only [List.length_drop]; omega
      obtain ⟨h1, h2, h3, h4⟩ := spec_unfold_err hv
      have key := spec_partition (input.drop (v + el))
      simp only [h1, h3, h4, List.length_append, List.length_take,
        List.length_drop] at key ⊢
      omega
termination_by input.length

/-- Spec-side safe bytes of a chunk are always valid UTF-8. -/
theorem specSafe_valid (input : List Nat) : utf8val (specSafe input) = none := by
  cases hv : utf8val input with
  | none =>
    obtain ⟨h1, h2, h3, h4⟩ := spec_unfold_none hv
    rw [h1]
    exact hv
  | some ve =>
    obtain ⟨v, eo⟩ := ve
    cases eo with
    | none =>
      obtain ⟨h1, h2, h3, h4⟩ := spec_unfold_incomplete hv
      rw [h1]
      exact utf8val_take_valid hv
    | some el =>
      have hb := utf8val_some_some input v el hv
      have hlt : (input.drop (v + el)).length < input.length := by
        simp only [List.length_drop]; omega
      obtain ⟨h1, h2, h3, h4⟩ := spec_unfold_err hv
      rw [h1]
      exact utf8val_append _ _ (utf8val_take_valid hv)
        (specSafe_valid (input.drop (v + el)))
termination_by input.length

/-- `extend_vec` in terms of the spec-side chunk scan. -/
theorem extend_vec_spec (st : SString) (raw : List Nat) :
    st.extend_vec raw =
      ⟨st.g ++ specGarbage raw, (specSpans raw).reverse ++ st.p, st.i ++ raw,
        st.s ++ specSafe raw⟩ := by
  unfold SString.extend_vec
  rw [scanLoop_spec]

/-- Cause payload of `std::string::FromUtf8Error`: the underlying
`Utf8Error` with its `valid_up_to` and `error_len`. -/
structure FromUtf8Cause where
  valid_up_to : Nat
  error_len : Option Nat
deriving DecidableEq

/-- `Error` of `src/sanitation/errors.rs`, payloads in source order:
`UnsafeString(&self.s, &self.g)` and
`InvalidUtf8(e, &self.g, &self.p, &self.i, &self.s)`. -/
inductive Error where
  | UnsafeString (s g : List Nat)
  | InvalidUtf8 (cause : FromUtf8Cause) (g : List Nat) (p : List (Nat × Nat))
      (i : List Nat) (s : List Nat)
deriving DecidableEq

/-- `SString::safe`: `String::from_utf8(self.i.clone())` on success returns
the text (modelled by its byte list); on failure, `UnsafeString` when
`has_garbage()`, else `InvalidUtf8` with the cause and all four
sequences. -/
def SString.safe (st : SString) : Except Error (List Nat) :=
  match utf8val st.i with
  | none => .ok st.i
  | some (v, eo) =>
    if st.has_garbage then .error (.UnsafeString st.s st.g)
    else .error (.InvalidUtf8 ⟨v, eo⟩ st.g st.p st.i st.s)

/-- Verdict written after the words of spec §4.2 (spec-side definition for
the refinement claim): re-validate the entire original ingested buffer as
one unit; if the whole buffer is valid UTF-8 succeed with that text; if
validation fails and the evidence shows accumulated garbage fail with
`UnsafeString` carrying the safe and the garbage bytes; if validation fails
and no garbage had been recorded fail with `InvalidUtf8` carrying the
low-level cause plus all four evidence sequences. -/
def verdictSpec (st : SString) : Except Error (List Nat) :=
  match utf8val st.i with
  | none => .ok st.i
  | some (v, eo) =>
    if 0 < st.g.length then .error (.UnsafeString st.s st.g)
    else .error (.InvalidUtf8 ⟨v, eo⟩ st.g st.p st.i st.s)

/-- `SBoolean` (`src/sanitation/sboolean.rs`): a single stored byte (the
source field is called `value`; it is `val` here because the method
`value()` needs that name in Lean). -/
structure SBoolean where
  val : Nat
deriving DecidableEq

/-- `SBoolean::new`. -/
def SBoolean.new (value : Nat) : SBoolean := ⟨value⟩

/-- `SBoolean::value`: `0` is `false`, every other byte `true`. -/
def SBoolean.value (b : SBoolean) : Bool :=
  match b.val with
  | 0 => false
  | _ => true

/-- `SBoolean::garbage`: `None` for `0 | 1`, `Some(value)` otherwise. -/
def SBoolean.garbage (b : SBoolean) : Option Nat :=
  match b.val with
  | 0 => none
  | 1 => none
  | g => some g

/-- One lowercase hex digit character (code point) of a value below 16, as
produced per digit by Rust's `format!("{:02x}", byte)`. -/
def hexChar (n : Nat) : Nat :=
  if n < 10 then 48 + n else 87 + n

/-- Digit characters of `to_hex`'s loop: two zero-padded lowercase hex
digits per byte, in input order (`format!("{:02x}", byte)` per byte). -/
def toHexDigits (bytes : List Nat) : List Nat :=
  (bytes.map (fun b => [hexChar (b / 16), hexChar (b % 16)])).flatten

/-- `to_hex` (`src/src/lib.rs`): `"0x"` followed by the digit characters.
Strings are modelled as lists of Unicode code points (`'0'` = 48,
`'x'` = 120). -/
def to_hex (bytes : List Nat) : List Nat :=
  48 :: 120 :: toHexDigits bytes

/-- ASCII lowercasing of one code point (`str::to_lowercase`, which on the
characters reachable here only affects `'A'..='Z'`). -/
def asciiLower (c : Nat) : Nat :=
  if 65 ≤ c ∧ c ≤ 90 then c + 32 else c

/-- The character class accepted by `from_hex`'s match:
`'a'..='f' | '0'..='9'`. -/
def isHexDigit (c : Nat) : Bool :=
  decide ((48 ≤ c ∧ c ≤ 57) ∨ (97 ≤ c ∧ c ≤ 102))

/-- Numeric value of an accepted hex digit character
(`u8::from_str_radix` on a single digit). -/
def hexDigitVal (c : Nat) : Nat :=
  if 48 ≤ c ∧ c ≤ 57 then c - 48 else c - 87

/-- The `for (j, c) in hex.chars().enumerate()` loop of `from_hex`: first
non-hex character together with its 0-based index, if any. -/
def firstNonHex : List Nat → Nat → Option (Nat × Nat)
  | [], _ => none
  | c :: rest, j =>
    if isHexDigit c then firstNonHex rest (j + 1) else some (j, c)

/-- The `while next <= hex.len()` loop of `from_hex`: group characters two
at a time into bytes via `u8::from_str_radix(_, 16)`; `none` models a
`ParseIntError` propagated by `?` (unreachable after validation); a trailing
lone character is skipped exactly as the loop's bound skips it. -/
def hexPairsE : List Nat → Option (List Nat)
  | c1 :: c2 :: rest =>
    if isHexDigit c1 ∧ isHexDigit c2 then
      (hexPairsE rest).map (fun t => (16 * hexDigitVal c1 + hexDigitVal c2) :: t)
    else none
  | _ => some []

/-- Modelled from the spec: the error type of the hex decoder.  `from_hex`
in `src/src/lib.rs` returns `crate::Error`, whose declaration lives in
`src/src/errors.rs`, a file not among the sources; spec §7 specifies
`MalformedHexInput`: empty input rejected, and a bad character rejected with
its 1-based position.  The `format!`-built `ParseError` strings are
modelled structurally: `emptyInput` for "empty hexadecimal string",
`invalidChar pos c` for "invalid hexadecimal character at pos {pos}: {c}",
and `intParse` for an error converted from `u8::from_str_radix`. -/
inductive HexError where
  | emptyInput
  | invalidChar (pos : Nat) (c : Nat)
  | intParse
deriving DecidableEq

/-- `from_hex` (`src/src/lib.rs`): reject empty input; lowercase; strip an
optional `0x` or `x` prefix; reject the first non-hex character with its
1-based position; left-pad odd-length digit strings with `'0'`; group into
bytes. -/
def from_hex (hex : List Nat) : Except HexError (List Nat) :=
  if hex = [] then .error .emptyInput
  else
    let h1 := hex.map asciiLower
    let h2 := if h1.take 2 = [48, 120] then h1.drop 2
              else if h1.take 1 = [120] then h1.drop 1
              else h1
    match firstNonHex h2 0 with
    | some jc => .error (.invalidChar (jc.1 + 1) jc.2)
    | none =>
      let h3 := if h2.length % 2 = 1 then 48 :: h2 else h2
      match hexPairsE h3 with
      | some bytes => .ok bytes
      | none => .error .intParse

example : from_hex (to_hex [0xF0, 0x53, 0x75, 0x52, 0x65]) = .ok [0xF0, 0x53, 0x75, 0x52, 0x65] := rfl
example : to_hex [0xF0, 0x53] = [48, 120, 102, 48, 53, 51] := by decide
example : from_hex [48, 120, 48] = .ok [0] := rfl
example : from_hex [48, 120, 101, 102, 102] = .ok [0x0E, 0xFF] := rfl
example : from_hex [] = .error .emptyInput := rfl
example : from_hex [48, 120] = .ok [] := rfl
example : from_hex [88, 70] = .ok [15] := rfl
example : from_hex [48, 120, 122, 122] = .error (.invalidChar 1 122) := rfl

/-- Common tail of `from_hex` after the prefix has been stripped: character
validation, odd-length padding, grouping. -/
def dpipe (dl : List Nat) : Except HexError (List Nat) :=
  match firstNonHex dl 0 with
  | some jc => .error (.invalidChar (jc.1 + 1) jc.2)
  | none =>
    match hexPairsE (if dl.length % 2 = 1 then 48 :: dl else dl) with
    | some bytes => .ok bytes
    | none => .error .intParse

theorem from_hex_0x (d : List Nat) :
    from_hex (48 :: 120 :: d) = dpipe (d.map asciiLower) := by
  simp [from_hex, dpipe, asciiLower]

theorem from_hex_x (d : List Nat) :
    from_hex (120 :: d) = dpipe (d.map asciiLower) := by
  simp [from_hex, dpipe, asciiLower]

theorem isHexDigit_ne_120 {c : Nat} (h : isHexDigit c = true) : c ≠ 120 := by
  simp [isHexDigit, decide_eq_true_eq] at h
  omega

theorem from_hex_plain (d : List Nat) (hne : d ≠ [])
    (hhex : ∀ x ∈ d, isHexDigit (asciiLower x) = true) :
    from_hex d = dpipe (d.map asciiLower) := by
  rcases d with _ | ⟨a, _ | ⟨b, t⟩⟩
  · exact absurd rfl hne
  · have ha := isHexDigit_ne_120 (hhex a (by simp))
    simp [from_hex, dpipe, ha]
  · have ha := isHexDigit_ne_120 (hhex a (by simp))
    have hb := isHexDigit_ne_120 (hhex b (by simp))
    simp [from_hex, dpipe, ha, hb]

theorem asciiLower_idem (c : Nat) : asciiLower (asciiLower c) = asciiLower c := by
  unfold asciiLower
  split_ifs <;> omega

theorem isHexDigit_asciiLower_self {c : Nat} (h : isHexDigit c = true) :
    asciiLower c = c := by
  simp [isHexDigit, decide_eq_true_eq] at h
  rw [asciiLower, if_neg (by omega)]

theorem map_asciiLower_of_hex (pre : List Nat)
    (hpre : ∀ x ∈ pre, isHexDigit x = true) : pre.map asciiLower = pre := by
  induction pre with
  | nil => rfl
  | cons a t ih =>
    simp only [List.map_cons, List.cons.injEq]
    exact ⟨isHexDigit_asciiLower_self (hpre a (by simp)),
      ih (fun x hx => hpre x (by simp [hx]))⟩

theorem firstNonHex_append_hex (pre : List Nat)
    (hpre : ∀ x ∈ pre, isHexDigit x = true) :
    ∀ (c : Nat) (post : List Nat) (j : Nat), isHexDigit c = false →
      firstNonHex (pre ++ c :: post) j = some (j + pre.length, c) := by
  induction pre with
  | nil =>
    intro c post j hc
    simp [firstNonHex, hc]
  | cons a t ih =>
    intro c post j hc
    have ha := hpre a (by simp)
    simp only [List.cons_append, firstNonHex, ha, if_true, List.length_cons]
    have h2 := ih (fun x hx => hpre x (by simp [hx])) c post (j + 1) hc
    rw [show j + (t.length + 1) = j + 1 + t.length by omega]
    exact h2

theorem isHexDigit_hexChar {n : Nat} (h : n < 16) : isHexDigit (hexChar n) = true := by
  simp only [hexChar, isHexDigit, decide_eq_true_eq]
  split_ifs with h10
  · left; omega
  · right; omega

theorem asciiLower_hexChar (n : Nat) : asciiLower (hexChar n) = hexChar n := by
  unfold asciiLower hexChar
  split_ifs <;> omega

theorem hexDigitVal_hexChar (n : Nat) : hexDigitVal (hexChar n) = n := by
  unfold hexDigitVal hexChar
  split_ifs <;> omega

theorem toHexDigits_cons (b : Nat) (t : List Nat) :
    toHexDigits (b :: t) = hexChar (b / 16) :: hexChar (b % 16) :: toHexDigits t := by
  simp [toHexDigits]

theorem toHexDigits_lower (bytes : List Nat) :
    (toHexDigits bytes).map asciiLower = toHexDigits bytes := by
  induction bytes with
  | nil => rfl
  | cons b t ih =>
    simp [toHexDigits_cons, asciiLower_hexChar, ih]

theorem toHexDigits_length (bytes : List Nat) :
    (toHexDigits bytes).length = 2 * bytes.length := by
  induction bytes with
  | nil => rfl
  | cons b t ih =>
    simp [toHexDigits_cons, ih]
    omega

theorem firstNonHex_toHexDigits (bytes : List Nat) (hb : ∀ x ∈ bytes, x < 256) :
    ∀ j, firstNonHex (toHexDigits bytes) j = none := by
  induction bytes with
  | nil => intro j; rfl
  | cons b t ih =>
    intro j
    have h1 : b / 16 < 16 := by have := hb b (by simp); omega
    have h2 : b % 16 < 16 := by omega
    simp only [toHexDigits_cons, firstNonHex, isHexDigit_hexChar h1,
      isHexDigit_hexChar h2, if_true]
    exact ih (fun x hx => hb x (by simp [hx])) (j + 2)

theorem hexPairsE_toHexDigits (bytes : List Nat) (hb : ∀ x ∈ bytes, x < 256) :
    hexPairsE (toHexDigits bytes) = some bytes := by
  induction bytes with
  | nil => rfl
  | cons b t ih =>
    have h1 : b / 16 < 16 := by have := hb b (by simp); omega
    have h2 : b % 16 < 16 := by omega
    have iht := ih (fun x hx => hb x (by simp [hx]))
    rw [toHexDigits_cons]
    simp [hexPairsE, isHexDigit_hexChar h1, isHexDigit_hexChar h2, iht,
      hexDigitVal_hexChar]
    omega

/-- Safe bytes stay valid UTF-8 across any sequence of `extend_vec` calls. -/
theorem fold_safe_valid (chunks : List (List Nat)) :
    ∀ st : SString, utf8val st.s = none →
      utf8val ((chunks.foldl SString.extend_vec st).s) = none := by
  induction chunks with
  | nil => intro st h; exact h
  | cons c t ih =>
    intro st h
    simp only [List.foldl_cons]
    apply ih
    rw [extend_vec_spec]
    exact utf8val_append _ _ h (specSafe_valid c)

/-- Safe plus garbage never exceeds ingested, across any sequence of
`extend_vec` calls. -/
theorem fold_partition_le (chunks : List (List Nat)) :
    ∀ st : SString, st.s.length + st.g.length ≤ st.i.length →
      (chunks.foldl SString.extend_vec st).s.length +
        (chunks.foldl SString.extend_vec st).g.length ≤
        (chunks.foldl SString.extend_vec st).i.length := by
  induction chunks with
  | nil => intro st h; exact h
  | cons c t ih =>
    intro st h
    simp only [List.foldl_cons]
    apply ih
    rw [extend_vec_spec]
    have hp := spec_partition c
    simp only [List.length_append]
    omega

/-- C1 (counterexample): `SString::new(&[0xC2])` ingests one byte but, the
validator reporting an incomplete sequence (`error_len == None`), records it
neither in the safe nor in the garbage sequence, so
`len() ≠ safe_len() + garbage_len()`. -/
theorem c1_partition_counterexample :
    (SString.new [0xC2]).len = 1 ∧ (SString.new [0xC2]).safe_len = 0 ∧
    (SString.new [0xC2]).garbage_len = 0 ∧
    ¬ (SString.new [0xC2]).len =
        (SString.new [0xC2]).safe_len + (SString.new [0xC2]).garbage_len := by
  decide

/-- C1 (amended): per `extend_vec` call (default declining callback) the
ingested length grows by the chunk length, and safe plus garbage grow by the
chunk length minus the undecided trailing bytes of an incomplete final
sequence (`specDropped`); hence for `new` the ingested length equals
`safe_len + garbage_len + specDropped`, and over any sequence of such calls
`safe_len + garbage_len ≤ len`, with equality whenever no chunk ends in an
incomplete multi-byte sequence. -/
theorem c1_partition_with_dropped (st : SString) (raw : List Nat)
    (chunks : List (List Nat)) :
    (st.extend_vec raw).safe_len + (st.extend_vec raw).garbage_len +
        specDropped raw = st.safe_len + st.garbage_len + raw.length ∧
    (st.extend_vec raw).len = st.len + raw.length ∧
    (SString.new raw).safe_len + (SString.new raw).garbage_len + specDropped raw =
      raw.length ∧
    (chunks.foldl SString.extend_vec SString.empty).safe_len +
        (chunks.foldl SString.extend_vec SString.empty).garbage_len ≤
      (chunks.foldl SString.extend_vec SString.empty).len := by
  have h := extend_vec_spec st raw
  have hp := spec_partition raw
  have hnew := extend_vec_spec SString.empty raw
  refine ⟨?_, ?_, ?_,
    fold_partition_le chunks SString.empty (by simp [SString.empty])⟩
  · simp only [SString.safe_len, SString.garbage_len, h, List.length_append]
    omega
  · simp only [SString.len, h, List.length_append]
  · have hs : (SString.new raw).s = specSafe raw := by
      rw [SString.new, hnew]; simp [SString.empty]
    have hg : (SString.new raw).g = specGarbage raw := by
      rw [SString.new, hnew]; simp [SString.empty]
    simp only [SString.safe_len, SString.garbage_len, hs, hg]
    omega

/-- C2: over any sequence of `extend_vec` calls starting from the empty
`SString` with the default declining callback (`new` and `push` are the
one-chunk and one-byte instances), the safe byte sequence is valid UTF-8, so
`unchecked_safe` returns a string without fault: its
`expect("valid UTF-8 bytes")` branch is unreachable. -/
theorem c2_totality_unchecked_safe (chunks : List (List Nat)) (b : List Nat) :
    utf8val ((chunks.foldl SString.extend_vec SString.empty).s) = none ∧
    (chunks.foldl SString.extend_vec SString.empty).unchecked_safe =
      some ((chunks.foldl SString.extend_vec SString.empty).s) ∧
    (SString.new b).unchecked_safe = some ((SString.new b).s) := by
  have h := fold_safe_valid chunks SString.empty rfl
  have hb : utf8val ((SString.new b).s) = none := by
    have h2 := fold_safe_valid [b] SString.empty rfl
    simpa [SString.new] using h2
  exact ⟨h, by simp [SString.unchecked_safe, h], by simp [SString.unchecked_safe, hb]⟩

/-- C3: `safe` is the §4.2 verdict: `Ok` with the whole ingested buffer
exactly when that buffer is valid UTF-8; `Err(UnsafeString(safe_bytes,
garbage_bytes))` exactly when whole-buffer validation fails and garbage was
accumulated; `Err(InvalidUtf8(cause, garbage, spans, ingested, safe))`
exactly when it fails with no garbage recorded. -/
theorem c3_verdict_classification (st : SString) :
    st.safe = verdictSpec st ∧
    (st.safe = .ok st.i ↔ utf8val st.i = none) ∧
    (st.safe = .error (.UnsafeString st.s st.g) ↔
      (¬ utf8val st.i = none ∧ st.has_garbage = true)) ∧
    ((∃ cause, st.safe = .error (.InvalidUtf8 cause st.g st.p st.i st.s)) ↔
      (¬ utf8val st.i = none ∧ st.has_garbage = false)) := by
  unfold SString.safe verdictSpec
  cases hv : utf8val st.i with
  | none => simp
  | some ve =>
    obtain ⟨v, eo⟩ := ve
    by_cases hg : 0 < st.g.length
    · simp [SString.has_garbage, SString.garbage_len, hg]
    · simp [SString.has_garbage, SString.garbage_len, hg]

/-- C4 (counterexample): after scanning `[0xFF,0xFF,0xFF]` the span list is
not the single whole-input span `[(0,3)]`. -/
theorem c4_all_invalid_counterexample :
    ¬ (SString.new [0xFF, 0xFF, 0xFF]).valid_utf8_chunk_boundaries = [(0, 3)] := by
  decide

/-- C4 (amended): scanning `[0xFF,0xFF,0xFF]` from empty yields
`safe == []` and `garbage == [0xFF,0xFF,0xFF]`, but as three one-byte
garbage runs: the recorded spans are `[(0,1),(0,1),(0,1)]` (each relative to
the input remaining at its iteration), not one span covering the whole
input. -/
theorem c4_all_invalid_three_runs :
    (SString.new [0xFF, 0xFF, 0xFF]).safe_vec = [] ∧
    (SString.new [0xFF, 0xFF, 0xFF]).garbage = [0xFF, 0xFF, 0xFF] ∧
    (SString.new [0xFF, 0xFF, 0xFF]).valid_utf8_chunk_boundaries =
      [(0, 1), (0, 1), (0, 1)] := by
  decide

/-- C5 (counterexample): scanning `[0x61,0xFF,0x62,0xFF]` records spans
`[(1,2),(1,2)]`: the second garbage run — the byte at chunk offset 3 — is
recorded as `(1,2)`, its offset within the input remaining after the first
run, so the span list is not the `[(3,4),(1,2)]` that chunk coordinates
with most-recent-first ordering would give. -/
theorem c5_spans_counterexample :
    (SString.new [0x61, 0xFF, 0x62, 0xFF]).garbage = [0xFF, 0xFF] ∧
    (SString.new [0x61, 0xFF, 0x62, 0xFF]).valid_utf8_chunk_boundaries =
      [(1, 2), (1, 2)] ∧
    ¬ (SString.new [0x61, 0xFF, 0x62, 0xFF]).valid_utf8_chunk_boundaries =
      [(3, 4), (1, 2)] := by
  decide

/-- C5 (amended): within a single scan of one chunk, one half-open interval
`[valid_up_to, valid_up_to + error_len)` is recorded per invalid run —
exactly `error_len` bytes joining `garbage` and scanning resuming right
after the run — but each interval is expressed in the coordinate space of
the input remaining at that iteration (the suffix just past the previous
garbage run), not of the chunk; runs are prepended, so `p` lists them
most-recent-first (`specSpans` is the chronological list). -/
theorem c5_spans_relative_most_recent_first (st : SString) (raw : List Nat) :
    (st.extend_vec raw).valid_utf8_chunk_boundaries =
      (specSpans raw).reverse ++ st.valid_utf8_chunk_boundaries ∧
    (st.extend_vec raw).garbage = st.garbage ++ specGarbage raw ∧
    (SString.new raw).valid_utf8_chunk_boundaries = (specSpans raw).reverse := by
  have h := extend_vec_spec st raw
  have hnew := extend_vec_spec SString.empty raw
  refine ⟨?_, ?_, ?_⟩
  · simp [SString.valid_utf8_chunk_boundaries, h]
  · simp [SString.garbage, h]
  · rw [SString.new, SString.valid_utf8_chunk_boundaries, hnew]
    simp [SString.empty]

/-- C6: the `extend_vec` loop terminates on every chunk (default declining
callback): whenever the validator reports a definite `error_len`, that
iteration consumes `valid_up_to + error_len ≥ 1` bytes (and at most the
whole remainder), so the remaining input strictly shrinks; hence one fuel
unit per iteration with `input.length + 1` units is always enough — any
larger fuel computes the same result.  The remaining branches (full
validity, recovery success, incomplete trailing sequence) break out of the
loop by construction. -/
theorem c6_scan_terminates (input : List Nat) (v el fuel : Nat) (st : SString)
    (hv : utf8val input = some (v, some el)) (hfuel : input.length < fuel) :
    1 ≤ v + el ∧ v + el ≤ input.length ∧
    (input.drop (v + el)).length < input.length ∧
    scanLoopF fuel input st = scanLoopF (input.length + 1) input st := by
  have hb := utf8val_some_some input v el hv
  refine ⟨by omega, by omega, ?_,
    scanLoopF_fuel fuel (input.length + 1) input st hfuel (by omega)⟩
  simp only [List.length_drop]
  omega

/-- C6 witness at the concrete input `[0xFF]`. -/
theorem c6_scan_terminates_witness :
    1 ≤ 0 + 1 ∧ 0 + 1 ≤ ([0xFF] : List Nat).length ∧
    (([0xFF] : List Nat).drop (0 + 1)).length < ([0xFF] : List Nat).length ∧
    scanLoopF 2 [0xFF] SString.empty =
      scanLoopF (([0xFF] : List Nat).length + 1) [0xFF] SString.empty :=
  c6_scan_terminates [0xFF] 0 1 2 SString.empty (by decide) (by decide)

/-- C7: decoding the hex encoding recovers every byte sequence exactly
(including the empty one, whose encoding is just `"0x"`). -/
theorem c7_hex_round_trip (b : List Nat) (hb : ∀ x ∈ b, x < 256) :
    from_hex (to_hex b) = .ok b := by
  rw [to_hex, from_hex_0x, toHexDigits_lower]
  simp [dpipe, firstNonHex_toHexDigits b hb, toHexDigits_length,
    hexPairsE_toHexDigits b hb, Nat.mul_mod_right]

/-- C7 witness at the concrete byte sequence `[0xF0,0x53,0x75,0x52,0x65]`
(the repository's own `to_hex` test vector). -/
theorem c7_hex_round_trip_witness :
    from_hex (to_hex [0xF0, 0x53, 0x75, 0x52, 0x65]) =
      .ok [0xF0, 0x53, 0x75, 0x52, 0x65] :=
  c7_hex_round_trip [0xF0, 0x53, 0x75, 0x52, 0x65] (by decide)

/-- C8: `from_hex` rejects the empty string; decodes `"0xeff"` to
`[0x0e,0xff]` (odd length left-zero-padded); accepts an optional `0x` or
`x` prefix and is case-insensitive over hex-digit strings; and rejects the
first non-hex character with that character's 1-based position among the
(prefix-stripped, lowercased) digit characters. -/
theorem c8_hex_decode_contract (d pre post : List Nat) (c : Nat)
    (hd : ¬ d = []) (hdhex : ∀ x ∈ d, isHexDigit (asciiLower x) = true)
    (hpre : ∀ x ∈ pre, isHexDigit x = true)
    (hc : isHexDigit (asciiLower c) = false) :
    from_hex [] = .error .emptyInput ∧
    from_hex [48, 120, 101, 102, 102] = .ok [0x0E, 0xFF] ∧
    from_hex (48 :: 120 :: d) = from_hex (120 :: d) ∧
    from_hex (48 :: 120 :: d) = from_hex d ∧
    from_hex d = from_hex (d.map asciiLower) ∧
    from_hex (48 :: 120 :: (pre ++ c :: post)) =
      .error (.invalidChar (pre.length + 1) (asciiLower c)) := by
  refine ⟨rfl, rfl, ?_, ?_, ?_, ?_⟩
  · rw [from_hex_0x, from_hex_x]
  · rw [from_hex_0x, from_hex_plain d hd hdhex]
  · have hex2 : ∀ x ∈ d.map asciiLower, isHexDigit (asciiLower x) = true := by
      intro x hx
      obtain ⟨y, hy, rfl⟩ := List.mem_map.mp hx
      rw [asciiLower_idem]
      exact hdhex y hy
    rw [from_hex_plain d hd hdhex,
      from_hex_plain (d.map asciiLower) (by simpa using hd) hex2]
    congr 1
    simp only [List.map_map]
    exact List.map_congr_left (fun a _ => by simp [Function.comp, asciiLower_idem])
  · rw [from_hex_0x]
    have hmap : (pre ++ c :: post).map asciiLower =
        pre ++ asciiLower c :: post.map asciiLower := by
      simp [map_asciiLower_of_hex pre hpre]
    rw [hmap]
    unfold dpipe
    rw [firstNonHex_append_hex pre hpre (asciiLower c) (post.map asciiLower) 0 hc]
    simp

/-- C8 witness: `d = "F"`, `pre = "e"`, `c = 'z'`, `post` empty — covering
`"0xF" = "xF" = "F" = "f"` and the positional rejection in `"0xez"`. -/
theorem c8_hex_decode_contract_witness :
    from_hex [] = .error .emptyInput ∧
    from_hex [48, 120, 101, 102, 102] = .ok [0x0E, 0xFF] ∧
    from_hex (48 :: 120 :: [70]) = from_hex (120 :: [70]) ∧
    from_hex (48 :: 120 :: [70]) = from_hex [70] ∧
    from_hex [70] = from_hex ([70].map asciiLower) ∧
    from_hex (48 :: 120 :: ([101] ++ 122 :: [])) =
      .error (.invalidChar ([101].length + 1) (asciiLower 122)) :=
  c8_hex_decode_contract [70] [101] [] 122 (by decide) (by decide) (by decide)
    (by decide)

/-- C9: classifying a byte through `SBoolean` is a pure total function:
byte `0` gives `(false, None)`, byte `1` gives `(true, None)`, and every
other byte `b` gives `(true, Some(b))`. -/
theorem c9_classifier (b : Nat) (hb : b < 256) :
    ((SBoolean.new b).value, (SBoolean.new b).garbage) =
      (decide (b ≠ 0), if b = 0 ∨ b = 1 then none else some b) := by
  rcases b with _ | _ | n <;> simp [SBoolean.new, SBoolean.value, SBoolean.garbage]

/-- C9 witness at byte `0xF4` (the repository's own test value):
classification yields `(true, Some(0xF4))`. -/
theorem c9_classifier_witness :
    ((SBoolean.new 0xF4).value, (SBoolean.new 0xF4).garbage) =
      (decide ((0xF4 : Nat) ≠ 0),
        if (0xF4 : Nat) = 0 ∨ (0xF4 : Nat) = 1 then none else some 0xF4) :=
  c9_classifier 0xF4 (by decide)

/-- C10: for every byte `0xC2 ≤ b ≤ 0xF4` (a well-formed multi-byte leading
byte), `SString::new(&[b])` — identically, pushing `b` alone onto an empty
`SString` — ingests the byte (`len() == 1`) but leaves safe, garbage and
spans all empty: the byte lands in neither classification stream. -/
theorem c10_lone_lead_byte_dropped (b : Nat) (h1 : 0xC2 ≤ b) (h2 : b ≤ 0xF4) :
    (SString.new [b]).len = 1 ∧ (SString.new [b]).safe_vec = [] ∧
    (SString.new [b]).garbage = [] ∧
    (SString.new [b]).valid_utf8_chunk_boundaries = [] ∧
    SString.empty.push b = SString.new [b] := by
  have hb : ¬ b ≤ 0x7F := by omega
  have hv : utf8val [b] = some (0, none) := by
    by_cases hd : b ≤ 0xDF
    · exact utf8val_two_nil hb
        (by unfold utf8CharWidth
            rw [if_neg (by omega), if_neg (by omega), if_pos (by omega)])
    · by_cases he : b ≤ 0xEF
      · exact utf8val_three_nil hb
          (by unfold utf8CharWidth
              rw [if_neg (by omega), if_neg (by omega), if_neg (by omega),
                if_pos (by omega)])
      · exact utf8val_four_nil hb
          (by unfold utf8CharWidth
              rw [if_neg (by omega), if_neg (by omega), if_neg (by omega),
                if_neg (by omega), if_pos (by omega)])
  obtain ⟨hs, hp, hg, hdrop⟩ := spec_unfold_incomplete hv
  have hnew := extend_vec_spec SString.empty [b]
  refine ⟨?_, ?_, ?_, ?_, rfl⟩
  · rw [SString.len, SString.new, hnew]; simp [SString.empty]
  · rw [SString.safe_vec, SString.new, hnew]; simp [SString.empty, hs]
  · rw [SString.garbage, SString.new, hnew]; simp [SString.empty, hg]
  · rw [SString.valid_utf8_chunk_boundaries, SString.new, hnew]
    simp [SString.empty, hp]

/-- C10 witness at byte `0xC2`. -/
theorem c10_lone_lead_byte_dropped_witness :
    (SString.new [0xC2]).len = 1 ∧ (SString.new [0xC2]).safe_vec = [] ∧
    (SString.new [0xC2]).garbage = [] ∧
    (SString.new [0xC2]).valid_utf8_chunk_boundaries = [] ∧
    SString.empty.push 0xC2 = SString.new [0xC2] :=
  c10_lone_lead_byte_dropped 0xC2 (by decide) (by decide)
end Sanitation
